import Mathlib

/-!
# Attestation lists: split, sort by profitability, limit

A verification development for `shared/attestationutil/attestation_list.go`.

Modelling conventions.

* `uint64` values (`Slot`, `MaxAttestations`, bit counts) are natural numbers. The code only
  compares them, it performs no arithmetic on them, so no wrap-around can occur.
* A Go pointer that may be `nil` is an `Option`.
* A Go closure that may have side effects (`validate`) is a state-passing function
  `σ → Bool × σ`; a closure without side effects is the special case that returns its state
  argument unchanged.
* A run-time panic (nil pointer dereference) is `Outcome.panic`.
* `sort.Slice` belongs to the Go standard library. It enters as a parameter (`SliceSorter`)
  of which the statements assume the documented contract of `sort.Slice`
  (`SliceSorter.MeetsContract`); `insertionSorter` is a concrete sorter that meets it.
-/

namespace attestationutil

/-! ## Data model (`ethpb.Attestation`) -/

/-- The bit list type `bitfield.Bitlist`, represented by the sequence of bits it encodes. -/
abbrev Bitlist := List Bool

/-- The method `Bitlist.Count`: the number of bits that are set. -/
def Bitlist.Count (b : Bitlist) : Nat :=
  b.count true

/-- The message `ethpb.Checkpoint`. -/
structure Checkpoint where
  Epoch : Nat
  Root : List Nat
deriving DecidableEq, Repr

/-- The message `ethpb.AttestationData`; the code reads `Slot` only. -/
structure AttestationData where
  Slot : Nat
  CommitteeIndex : Nat
  BeaconBlockRoot : List Nat
  Source : Option Checkpoint
  Target : Option Checkpoint
deriving DecidableEq, Repr

/-- The message `ethpb.Attestation`; `Data` is a pointer and may be nil. -/
structure Attestation where
  AggregationBits : Bitlist
  Data : Option AttestationData
  Signature : List Nat
deriving DecidableEq, Repr

/-- An element of the list, `*ethpb.Attestation`: a pointer that may be nil. -/
abbrev AttPtr := Option Attestation

/-- The type `List` of the source, `[]*ethpb.Attestation`. -/
abbrev AttList := List AttPtr

/-! ## `SplitValidate` -/

/-- The loop of `SplitValidate` (source lines 32-38): `rest` is what remains of the range,
`s` the state the closure `validate` acts on, `validAtts` and `invalidAtts` the two slices
built so far. -/
def SplitValidate.loop {σ : Type} (validate : AttPtr → σ → Bool × σ) :
    AttList → σ → AttList → AttList → (AttList × AttList) × σ
  | [], s, validAtts, invalidAtts => ((validAtts, invalidAtts), s)
  | att :: rest, s, validAtts, invalidAtts =>
    let r := validate att s
    if r.1 then
      SplitValidate.loop validate rest r.2 (validAtts ++ [att]) invalidAtts
    else
      SplitValidate.loop validate rest r.2 validAtts (invalidAtts ++ [att])

/-- The method `List.SplitValidate`: both slices start empty and the loop runs over `al`.
The result is the pair (valid, invalid) together with the state `validate` leaves behind. -/
def SplitValidate {σ : Type} (validate : AttPtr → σ → Bool × σ) (al : AttList) (s : σ) :
    (AttList × AttList) × σ :=
  SplitValidate.loop validate al s [] []

/-- A closure without side effects, as a state-passing function. -/
def pureValidate {σ : Type} (p : AttPtr → Bool) : AttPtr → σ → Bool × σ :=
  fun att s => (p att, s)

/-- A recording stub: it behaves as `validate` and appends every argument it is called
with to a log kept next to the state of `validate`. -/
def recordCalls {σ : Type} (validate : AttPtr → σ → Bool × σ) :
    AttPtr → σ × List AttPtr → Bool × (σ × List AttPtr) :=
  fun att s => ((validate att s.1).1, ((validate att s.1).2, s.2 ++ [att]))

/-! ## `SplitForProposer` -/

/-- The method `List.SplitForProposer`. `ProcessAttestation` stands for
`blocks.ProcessAttestation`, which is not part of this file: given the context, the beacon
state behind the pointer `state` and an attestation, it yields the beacon state after the call
and the error it returns (`none` is a nil error). The closure handed to `SplitValidate`
answers `true` exactly when the error is nil. -/
def SplitForProposer {Ctx St Err : Type}
    (ProcessAttestation : Ctx → St → AttPtr → St × Option Err)
    (al : AttList) (ctx : Ctx) (state : St) : (AttList × AttList) × St :=
  SplitValidate
    (fun att st =>
      match (ProcessAttestation ctx st att).2 with
      | none => (true, (ProcessAttestation ctx st att).1)
      | some _ => (false, (ProcessAttestation ctx st att).1))
    al state

/-! ## `sort.Slice` -/

/-- A run-time panic. -/
inductive Panic where
  | nilPointerDereference
deriving DecidableEq, Repr

/-- The outcome of a call that may panic. -/
inductive Outcome (α : Type) where
  | ok (value : α)
  | panic (p : Panic)
deriving DecidableEq, Repr

/-- What a sorting call leaves behind: the slice after the call (or the panic that ended
the call) and the pairs the comparator was evaluated on, in the order of evaluation. -/
structure SortRun (α : Type) where
  result : Outcome (List α)
  calls : List (α × α)
deriving DecidableEq, Repr

/-- The requirement `sort.Slice` puts on its `less` function: a strict weak ordering. -/
structure StrictWeakOrder {α : Type} (r : α → α → Bool) : Prop where
  irrefl : ∀ a, r a a = false
  trans : ∀ a b c, r a b = true → r b c = true → r a c = true
  incomp_trans : ∀ a b c, r a b = false → r b c = false → r a c = false

/-- The function `sort.Slice` of the Go standard library, as a parameter: any function that
takes a `less` function and a slice and leaves a `SortRun` behind. -/
structure SliceSorter where
  sort : {α : Type} → (α → α → Outcome Bool) → List α → SortRun α

/-- The contract of `sort.Slice`: when `less` answers without panic on the elements of the
slice and its answers form a strict weak ordering, the call returns, the slice holds the same
elements as before, and no element is less than an element placed before it. The order of
elements that are not less than one another is left open (the sort is not guaranteed to be
stable). -/
def SliceSorter.MeetsContract (S : SliceSorter) : Prop :=
  ∀ {α : Type} (less : α → α → Outcome Bool) (r : α → α → Bool) (l : List α),
    StrictWeakOrder r → (∀ a ∈ l, ∀ b ∈ l, less a b = Outcome.ok (r a b)) →
    ∃ out, (S.sort less l).result = Outcome.ok out ∧ out.Perm l ∧
      out.Pairwise (fun a b => r b a = false)

/-- Inner loop of insertion sort: `x` moves left past every element it is less than.
The sorted part is given last element first, and is returned last element first. -/
def insertionSort.inner {α : Type} (less : α → α → Outcome Bool) (x : α) :
    List α → SortRun α
  | [] => ⟨Outcome.ok [x], []⟩
  | p :: ps =>
    match less x p with
    | Outcome.panic e => ⟨Outcome.panic e, [(x, p)]⟩
    | Outcome.ok false => ⟨Outcome.ok (x :: p :: ps), [(x, p)]⟩
    | Outcome.ok true =>
      match insertionSort.inner less x ps with
      | ⟨Outcome.ok out, calls⟩ => ⟨Outcome.ok (p :: out), (x, p) :: calls⟩
      | ⟨Outcome.panic e, calls⟩ => ⟨Outcome.panic e, (x, p) :: calls⟩

/-- Outer loop of insertion sort: `sorted` is the sorted part, last element first. -/
def insertionSort.outer {α : Type} (less : α → α → Outcome Bool) :
    List α → List α → List (α × α) → SortRun α
  | [], sorted, calls => ⟨Outcome.ok sorted.reverse, calls⟩
  | x :: rest, sorted, calls =>
    match insertionSort.inner less x sorted with
    | ⟨Outcome.ok sorted', calls'⟩ => insertionSort.outer less rest sorted' (calls ++ calls')
    | ⟨Outcome.panic e, calls'⟩ => ⟨Outcome.panic e, calls ++ calls'⟩

/-- Insertion sort, the algorithm `sort.Slice` finishes short ranges with: a concrete sorter
against which the contract of `sort.Slice` is checked. -/
def insertionSort {α : Type} (less : α → α → Outcome Bool) (l : List α) : SortRun α :=
  insertionSort.outer less l [] []

/-- Insertion sort as a sorter. -/
def insertionSorter : SliceSorter where
  sort := fun less l => insertionSort less l

/-! ## `SortByProfitability` -/

/-- The `less` closure of `SortByProfitability` (source lines 47-52), on the two elements
the indices `i` and `j` select. Reading `Data.Slot` through a nil pointer panics. -/
def less (x y : AttPtr) : Outcome Bool :=
  match x, y with
  | some a, some b =>
    match a.Data, b.Data with
    | some da, some db =>
      if da.Slot = db.Slot then
        Outcome.ok (decide (a.AggregationBits.Count > b.AggregationBits.Count))
      else
        Outcome.ok (decide (da.Slot > db.Slot))
    | _, _ => Outcome.panic Panic.nilPointerDereference
  | _, _ => Outcome.panic Panic.nilPointerDereference

/-- The method `List.SortByProfitability`: a slice of fewer than two elements is returned
as it is, without a call of `sort.Slice`; otherwise `sort.Slice` runs with `less`. -/
def SortByProfitability (S : SliceSorter) (al : AttList) : SortRun AttPtr :=
  if al.length < 2 then
    ⟨Outcome.ok al, []⟩
  else
    S.sort less al

/-! ## `LimitToMaxAttestations` -/

/-- The part of `params.BeaconChainConfig` the code reads. -/
structure BeaconChainConfig where
  MaxAttestations : Nat
deriving DecidableEq, Repr

/-- The method `List.LimitToMaxAttestations`; `BeaconConfig` stands for the value of
`params.BeaconConfig()`. The length of a slice is a non-negative `int`, so its conversion to
`uint64` is the length itself. -/
def LimitToMaxAttestations (BeaconConfig : BeaconChainConfig) (al : AttList) : AttList :=
  if al.length > BeaconConfig.MaxAttestations then
    al.take BeaconConfig.MaxAttestations
  else
    al

/-! ## Vocabulary of the statements -/

/-- The attestation behind the pointer is there and so is its `Data`. -/
def HasData (x : AttPtr) : Prop :=
  ∃ a da, x = some a ∧ a.Data = some da

/-- The pointer `x` leads to an attestation of slot `slot` and bit count `count`. -/
def HasKey (x : AttPtr) (slot count : Nat) : Prop :=
  ∃ a da, x = some a ∧ a.Data = some da ∧ da.Slot = slot ∧ a.AggregationBits.Count = count

/-- The order between neighbours in a list sorted by profitability: `A` has the higher
slot, or the same slot and a bit count at least as high. -/
def ProfitabilityOrdered (A B : AttPtr) : Prop :=
  ∃ sa ca sb cb, HasKey A sa ca ∧ HasKey B sb cb ∧ (sa > sb ∨ (sa = sb ∧ ca ≥ cb))

/-- Slot and bit count of an element; `(0, 0)` where a pointer is nil. -/
def sortKey (x : AttPtr) : Nat × Nat :=
  match x with
  | some a =>
    match a.Data with
    | some da => (da.Slot, a.AggregationBits.Count)
    | none => (0, 0)
  | none => (0, 0)

/-- The answers of `less`, read off the keys. -/
def keyLess (x y : AttPtr) : Bool :=
  if (sortKey x).1 = (sortKey y).1 then decide ((sortKey x).2 > (sortKey y).2)
  else decide ((sortKey x).1 > (sortKey y).1)

/-- The order between the keys (slot, bit count) of neighbours in a list sorted by
profitability: the first slot is higher, or the slots are equal and the first bit count is at
least the second. -/
def KeyOrdered (k₁ k₂ : Nat × Nat) : Prop :=
  k₁.1 > k₂.1 ∨ (k₁.1 = k₂.1 ∧ k₁.2 ≥ k₂.2)

/-- The ranking relation as the specification words it: `A` ranks before `B` when the slot of
`A` is higher, or the slots are equal and the bit count of `A` is higher. -/
def RanksBefore (sa ca sb cb : Nat) : Prop :=
  sa > sb ∨ (sa = sb ∧ ca > cb)

instance (sa ca sb cb : Nat) : Decidable (RanksBefore sa ca sb cb) := by
  unfold RanksBefore
  exact inferInstance

/-- The predicate of the split scenario, "the slot of the attestation is at least `n`", on
attestations with `Data`. -/
def slotAtLeast (n : Nat) (att : AttPtr) : Bool :=
  decide (n ≤ (sortKey att).1)

/-- An attestation of the given slot and aggregation bits, its other fields empty. -/
def attOf (slot : Nat) (bits : Bitlist) : AttPtr :=
  some ⟨bits, some ⟨slot, 0, [], none, none⟩, []⟩

/-- A list of 10 attestations of which 3 have a slot below 2. -/
def scenarioList : AttList :=
  [attOf 0 [true], attOf 5 [true], attOf 1 [false], attOf 3 [true, true], attOf 2 [true],
   attOf 7 [true], attOf 1 [true], attOf 9 [false], attOf 4 [true], attOf 2 [false]]

/-! ## `SplitValidate`: the loop seen from the head of the list -/

theorem SplitValidate.loop_acc {σ : Type} (validate : AttPtr → σ → Bool × σ) (l : AttList) :
    ∀ (s : σ) (v i : AttList),
      SplitValidate.loop validate l s v i =
        ((v ++ (SplitValidate.loop validate l s [] []).1.1,
          i ++ (SplitValidate.loop validate l s [] []).1.2),
         (SplitValidate.loop validate l s [] []).2) := by
  induction l with
  | nil => intro s v i; simp [SplitValidate.loop]
  | cons att rest ih =>
    intro s v i
    simp only [SplitValidate.loop]
    by_cases h : (validate att s).1 = true
    · simp only [h, if_true]
      rw [ih (validate att s).2 (v ++ [att]) i, ih (validate att s).2 ([] ++ [att]) []]
      simp
    · simp only [h, if_false, Bool.false_eq_true]
      rw [ih (validate att s).2 v (i ++ [att]), ih (validate att s).2 [] ([] ++ [att])]
      simp

theorem SplitValidate_nil {σ : Type} (validate : AttPtr → σ → Bool × σ) (s : σ) :
    SplitValidate validate [] s = (([], []), s) := rfl

theorem SplitValidate_cons_true {σ : Type} (validate : AttPtr → σ → Bool × σ)
    (att : AttPtr) (rest : AttList) (s : σ) (h : (validate att s).1 = true) :
    SplitValidate validate (att :: rest) s =
      ((att :: (SplitValidate validate rest (validate att s).2).1.1,
        (SplitValidate validate rest (validate att s).2).1.2),
       (SplitValidate validate rest (validate att s).2).2) := by
  unfold SplitValidate
  simp only [SplitValidate.loop, h, if_true]
  rw [SplitValidate.loop_acc]
  simp

theorem SplitValidate_cons_false {σ : Type} (validate : AttPtr → σ → Bool × σ)
    (att : AttPtr) (rest : AttList) (s : σ) (h : (validate att s).1 = false) :
    SplitValidate validate (att :: rest) s =
      (((SplitValidate validate rest (validate att s).2).1.1,
        att :: (SplitValidate validate rest (validate att s).2).1.2),
       (SplitValidate validate rest (validate att s).2).2) := by
  unfold SplitValidate
  simp only [SplitValidate.loop, h, if_false, Bool.false_eq_true]
  rw [SplitValidate.loop_acc]
  simp

theorem SplitValidate_perm {σ : Type} (validate : AttPtr → σ → Bool × σ) (al : AttList) :
    ∀ s : σ, ((SplitValidate validate al s).1.1 ++ (SplitValidate validate al s).1.2).Perm al := by
  induction al with
  | nil => intro s; simp [SplitValidate_nil]
  | cons att rest ih =>
    intro s
    by_cases h : (validate att s).1 = true
    · rw [SplitValidate_cons_true validate att rest s h]
      exact (ih (validate att s).2).cons att
    · have h' : (validate att s).1 = false := by simpa using h
      rw [SplitValidate_cons_false validate att rest s h']
      exact List.perm_middle.trans ((ih (validate att s).2).cons att)

theorem SplitValidate_sublist {σ : Type} (validate : AttPtr → σ → Bool × σ) (al : AttList) :
    ∀ s : σ, (SplitValidate validate al s).1.1.Sublist al ∧
      (SplitValidate validate al s).1.2.Sublist al := by
  induction al with
  | nil => intro s; simp [SplitValidate_nil]
  | cons att rest ih =>
    intro s
    by_cases h : (validate att s).1 = true
    · rw [SplitValidate_cons_true validate att rest s h]
      exact ⟨(ih _).1.cons₂ att, (ih _).2.cons att⟩
    · have h' : (validate att s).1 = false := by simpa using h
      rw [SplitValidate_cons_false validate att rest s h']
      exact ⟨(ih _).1.cons att, (ih _).2.cons₂ att⟩

theorem SplitValidate_filter {σ : Type} (validate : AttPtr → σ → Bool × σ) (p : AttPtr → Bool)
    (hp : ∀ att s, (validate att s).1 = p att) (al : AttList) :
    ∀ s : σ, (SplitValidate validate al s).1 =
      (al.filter p, al.filter (fun att => !p att)) := by
  induction al with
  | nil => intro s; simp [SplitValidate_nil]
  | cons att rest ih =>
    intro s
    by_cases h : p att = true
    · rw [SplitValidate_cons_true validate att rest s ((hp att s).trans h)]
      simp [ih, h]
    · have h' : p att = false := by simpa using h
      rw [SplitValidate_cons_false validate att rest s ((hp att s).trans h')]
      simp [ih, h']

theorem SplitValidate_stateless {σ : Type} (validate : AttPtr → σ → Bool × σ)
    (hv : ∀ att s, (validate att s).2 = s) (al : AttList) (s : σ) :
    SplitValidate validate al s =
      ((al.filter (fun att => (validate att s).1),
        al.filter (fun att => !(validate att s).1)), s) := by
  induction al with
  | nil => simp [SplitValidate_nil]
  | cons att rest ih =>
    by_cases h : (validate att s).1 = true
    · rw [SplitValidate_cons_true validate att rest s h, hv att s, ih]
      simp [h]
    · have h' : (validate att s).1 = false := by simpa using h
      rw [SplitValidate_cons_false validate att rest s h', hv att s, ih]
      simp [h']

theorem SplitValidate_recordCalls {σ : Type} (validate : AttPtr → σ → Bool × σ) (al : AttList) :
    ∀ (s : σ) (log : List AttPtr),
      SplitValidate (recordCalls validate) al (s, log) =
        ((SplitValidate validate al s).1, ((SplitValidate validate al s).2, log ++ al)) := by
  induction al with
  | nil => intro s log; simp [SplitValidate_nil]
  | cons att rest ih =>
    intro s log
    by_cases h : (validate att s).1 = true
    · have hr : (recordCalls validate att (s, log)).1 = true := h
      rw [SplitValidate_cons_true validate att rest s h,
        SplitValidate_cons_true (recordCalls validate) att rest (s, log) hr]
      have e : (recordCalls validate att (s, log)).2 = ((validate att s).2, log ++ [att]) := rfl
      rw [e, ih]
      simp
    · have h' : (validate att s).1 = false := by simpa using h
      have hr : (recordCalls validate att (s, log)).1 = false := h'
      rw [SplitValidate_cons_false validate att rest s h',
        SplitValidate_cons_false (recordCalls validate) att rest (s, log) hr]
      have e : (recordCalls validate att (s, log)).2 = ((validate att s).2, log ++ [att]) := rfl
      rw [e, ih]
      simp

/-! ## Claims on `SplitValidate` -/

/-- C1: for every list `al` and every predicate `validate` (with or without side effects),
the two lists `SplitValidate` returns, put one after the other, are a permutation of `al`:
every attestation occurs in the two outputs together exactly as often as in `al`, and the
two lengths add up to the length of `al`. -/
theorem C1_SplitValidate_partition {σ : Type} (validate : AttPtr → σ → Bool × σ)
    (al : AttList) (s : σ) :
    ((SplitValidate validate al s).1.1 ++ (SplitValidate validate al s).1.2).Perm al ∧
    (∀ att : AttPtr, (SplitValidate validate al s).1.1.count att +
        (SplitValidate validate al s).1.2.count att = al.count att) ∧
    (SplitValidate validate al s).1.1.length + (SplitValidate validate al s).1.2.length
      = al.length := by
  have hperm := SplitValidate_perm validate al s
  refine ⟨hperm, ?_, ?_⟩
  · intro att
    rw [← List.count_append]
    exact hperm.countP_eq _
  · rw [← List.length_append]
    exact hperm.length_eq

/-- C2: for every list `al` and every predicate `validate`, both outputs of `SplitValidate`
keep the input order: each of them is a subsequence of `al`. -/
theorem C2_SplitValidate_stable {σ : Type} (validate : AttPtr → σ → Bool × σ)
    (al : AttList) (s : σ) :
    (SplitValidate validate al s).1.1.Sublist al ∧
    (SplitValidate validate al s).1.2.Sublist al :=
  SplitValidate_sublist validate al s

/-- C3: when the answer of `validate` on an attestation is a function `p` of that
attestation (a deterministic predicate), the valid output is `al` filtered by `p`, the invalid
output is `al` filtered by the negation of `p`, every element of the valid output satisfies
`p` and no element of the invalid output does. -/
theorem C3_SplitValidate_filter {σ : Type} (validate : AttPtr → σ → Bool × σ)
    (p : AttPtr → Bool) (hp : ∀ att s, (validate att s).1 = p att) (al : AttList) (s : σ) :
    (SplitValidate validate al s).1.1 = al.filter p ∧
    (SplitValidate validate al s).1.2 = al.filter (fun att => !p att) ∧
    (∀ att ∈ (SplitValidate validate al s).1.1, p att = true) ∧
    (∀ att ∈ (SplitValidate validate al s).1.2, p att = false) := by
  rw [SplitValidate_filter validate p hp al s]
  refine ⟨rfl, rfl, ?_, ?_⟩
  · intro att h
    exact (List.mem_filter.mp h).2
  · intro att h
    simpa using (List.mem_filter.mp h).2

/-- Witness of C3: the predicate "the pointer is not nil" on a list of a nil pointer and an
attestation. -/
theorem C3_SplitValidate_filter_witness :
    (∀ (att : AttPtr) (s : Unit), (pureValidate Option.isSome att s).1 = Option.isSome att) ∧
    ((SplitValidate (pureValidate Option.isSome) [none, some ⟨[true], none, []⟩] ()).1.1
        = List.filter Option.isSome [none, some ⟨[true], none, []⟩] ∧
     (SplitValidate (pureValidate Option.isSome) [none, some ⟨[true], none, []⟩] ()).1.2
        = List.filter (fun att => !Option.isSome att) [none, some ⟨[true], none, []⟩] ∧
     (∀ att ∈ (SplitValidate (pureValidate Option.isSome)
        [none, some ⟨[true], none, []⟩] ()).1.1, Option.isSome att = true) ∧
     (∀ att ∈ (SplitValidate (pureValidate Option.isSome)
        [none, some ⟨[true], none, []⟩] ()).1.2, Option.isSome att = false)) :=
  ⟨fun _ _ => rfl,
   C3_SplitValidate_filter (pureValidate Option.isSome) Option.isSome (fun _ _ => rfl)
     [none, some ⟨[true], none, []⟩] ()⟩

/-- C8: run with a recording stub around any predicate `validate`, `SplitValidate` calls the
predicate once on each element of `al`, in input order: the log of the arguments is exactly
`al`, so the number of calls is the length of `al`. The recording does not change the two
output lists nor the state `validate` leaves behind. -/
theorem C8_SplitValidate_calls {σ : Type} (validate : AttPtr → σ → Bool × σ)
    (al : AttList) (s : σ) :
    (SplitValidate (recordCalls validate) al (s, [])).2.2 = al ∧
    (SplitValidate (recordCalls validate) al (s, [])).2.2.length = al.length ∧
    (SplitValidate (recordCalls validate) al (s, [])).1 = (SplitValidate validate al s).1 ∧
    (SplitValidate (recordCalls validate) al (s, [])).2.1 = (SplitValidate validate al s).2 := by
  rw [SplitValidate_recordCalls validate al s []]
  simp

/-! ## Insertion sort meets the contract of `sort.Slice` -/

theorem StrictWeakOrder.asymm {α : Type} {r : α → α → Bool} (hr : StrictWeakOrder r)
    {a b : α} (h : r a b = true) : r b a = false := by
  cases hba : r b a with
  | false => rfl
  | true =>
    have := hr.trans a b a h hba
    rw [hr.irrefl a] at this
    exact absurd this (by decide)

theorem insertionSort.inner_spec {α : Type} (less : α → α → Outcome Bool) (r : α → α → Bool)
    (hr : StrictWeakOrder r) (x : α) (sorted : List α)
    (hless : ∀ p ∈ sorted, less x p = Outcome.ok (r x p))
    (hs : sorted.Pairwise (fun a b => r a b = false)) :
    ∃ out, (insertionSort.inner less x sorted).result = Outcome.ok out ∧
      out.Perm (x :: sorted) ∧ out.Pairwise (fun a b => r a b = false) := by
  induction sorted with
  | nil => exact ⟨[x], rfl, List.Perm.refl _, List.pairwise_singleton _ _⟩
  | cons p ps ih =>
    have hp : less x p = Outcome.ok (r x p) := hless p (List.mem_cons_self p ps)
    have hps := List.pairwise_cons.mp hs
    cases hxp : r x p with
    | false =>
      refine ⟨x :: p :: ps, ?_, List.Perm.refl _, ?_⟩
      · simp [insertionSort.inner, hp, hxp]
      · refine List.pairwise_cons.mpr ⟨?_, hs⟩
        intro b hb
        rcases List.mem_cons.mp hb with rfl | hb
        · exact hxp
        · exact hr.incomp_trans x p b hxp (hps.1 b hb)
    | true =>
      obtain ⟨out, hout, hperm, hpw⟩ :=
        ih (fun q hq => hless q (List.mem_cons_of_mem p hq)) hps.2
      refine ⟨p :: out, ?_, ?_, ?_⟩
      · rcases hrun : insertionSort.inner less x ps with ⟨res, calls⟩
        rw [hrun] at hout
        simp only at hout
        subst hout
        simp [insertionSort.inner, hp, hxp, hrun]
      · exact (hperm.cons p).trans (List.Perm.swap x p ps)
      · refine List.pairwise_cons.mpr ⟨?_, hpw⟩
        intro b hb
        rcases List.mem_cons.mp (hperm.subset hb) with rfl | hb
        · exact hr.asymm hxp
        · exact hps.1 b hb

theorem insertionSort.outer_spec {α : Type} (less : α → α → Outcome Bool) (r : α → α → Bool)
    (hr : StrictWeakOrder r) (rest : List α) :
    ∀ (sorted : List α) (calls : List (α × α)),
      (∀ a ∈ rest ++ sorted, ∀ b ∈ rest ++ sorted, less a b = Outcome.ok (r a b)) →
      sorted.Pairwise (fun a b => r a b = false) →
      ∃ out, (insertionSort.outer less rest sorted calls).result = Outcome.ok out ∧
        out.Perm (rest ++ sorted) ∧ out.Pairwise (fun a b => r b a = false) := by
  induction rest with
  | nil =>
    intro sorted calls _ hs
    refine ⟨sorted.reverse, rfl, ?_, ?_⟩
    · simp
    · exact List.pairwise_reverse.mpr hs
  | cons x rest ih =>
    intro sorted calls hless hs
    obtain ⟨mid, hmid, hperm, hpw⟩ := insertionSort.inner_spec less r hr x sorted
      (fun p hp => hless x (by simp) p (by simp [hp])) hs
    rcases hrun : insertionSort.inner less x sorted with ⟨res, calls'⟩
    rw [hrun] at hmid
    simp only at hmid
    subst hmid
    have hsub : ∀ a ∈ rest ++ mid, a ∈ x :: rest ++ sorted := by
      intro a ha
      rcases List.mem_append.mp ha with h | h
      · simp [h]
      · rcases List.mem_cons.mp (hperm.subset h) with rfl | h
        · simp
        · simp [h]
    obtain ⟨out, hout, hperm', hpw'⟩ := ih mid (calls ++ calls')
      (fun a ha b hb => hless a (hsub a ha) b (hsub b hb)) hpw
    refine ⟨out, ?_, ?_, hpw'⟩
    · simp only [insertionSort.outer, hrun]
      exact hout
    · refine hperm'.trans ?_
      refine ((List.Perm.refl rest).append hperm).trans ?_
      simp

/-- Insertion sort meets the contract of `sort.Slice`. -/
theorem insertionSorter_meetsContract : insertionSorter.MeetsContract := by
  intro α less r l hr hless
  obtain ⟨out, hout, hperm, hpw⟩ := insertionSort.outer_spec less r hr l [] []
    (by simpa using hless) List.Pairwise.nil
  exact ⟨out, hout, by simpa using hperm, hpw⟩

/-! ## The `less` closure -/

theorem keyLess_strictWeakOrder : StrictWeakOrder keyLess := by
  refine ⟨?_, ?_, ?_⟩
  · intro a
    simp [keyLess]
  · intro a b c
    unfold keyLess
    intro hab hbc
    split_ifs at hab hbc ⊢ <;> simp only [decide_eq_true_eq] at hab hbc ⊢ <;> omega
  · intro a b c
    unfold keyLess
    intro hab hbc
    split_ifs at hab hbc ⊢ <;> simp only [decide_eq_false_iff_not] at hab hbc ⊢ <;> omega

theorem HasData.hasKey {x : AttPtr} (h : HasData x) : HasKey x (sortKey x).1 (sortKey x).2 := by
  obtain ⟨a, da, rfl, hda⟩ := h
  exact ⟨a, da, rfl, hda, by simp [sortKey, hda], by simp [sortKey, hda]⟩

theorem less_eq_keyLess {x y : AttPtr} (hx : HasData x) (hy : HasData y) :
    less x y = Outcome.ok (keyLess x y) := by
  obtain ⟨a, da, rfl, hda⟩ := hx
  obtain ⟨b, db, rfl, hdb⟩ := hy
  simp only [less, keyLess, sortKey, hda, hdb]
  split_ifs <;> rfl

theorem profitabilityOrdered_of_keyLess {A B : AttPtr} (hA : HasData A) (hB : HasData B)
    (h : keyLess B A = false) : ProfitabilityOrdered A B := by
  refine ⟨_, _, _, _, hA.hasKey, hB.hasKey, ?_⟩
  unfold keyLess at h
  split_ifs at h with he <;> simp only [decide_eq_false_iff_not] at h <;> omega

/-- With a sorter that meets the contract of `sort.Slice` and a list whose elements all have
`Data`, `SortByProfitability` returns a permutation of the list in which every element stands
before every element it is `ProfitabilityOrdered` with. -/
theorem SortByProfitability_sorted (S : SliceSorter) (hS : S.MeetsContract) (al : AttList)
    (hal : ∀ x ∈ al, HasData x) :
    ∃ out, (SortByProfitability S al).result = Outcome.ok out ∧ out.Perm al ∧
      out.Pairwise ProfitabilityOrdered := by
  unfold SortByProfitability
  by_cases hlen : al.length < 2
  · rw [if_pos hlen]
    refine ⟨al, rfl, List.Perm.refl _, ?_⟩
    match al, hlen with
    | [], _ => exact List.Pairwise.nil
    | [x], _ => exact List.pairwise_singleton _ _
    | _ :: _ :: _, h => exact absurd h (by simp)
  · rw [if_neg hlen]
    obtain ⟨out, hout, hperm, hpw⟩ := hS less keyLess al keyLess_strictWeakOrder
      (fun a ha b hb => less_eq_keyLess (hal a ha) (hal b hb))
    refine ⟨out, hout, hperm, ?_⟩
    refine hpw.imp_of_mem ?_
    intro a b ha hb h
    exact profitabilityOrdered_of_keyLess (hal a (hperm.subset ha)) (hal b (hperm.subset hb)) h

/-! ## Claims on `SortByProfitability` -/

/-- C4: for every list whose elements all have `Data`, with `sort.Slice` meeting its contract,
`SortByProfitability` returns a list in which every adjacent pair (A, B), A immediately before
B, satisfies: the slot of A is higher than the slot of B, or the slots are equal and the bit
count of A is at least the bit count of B. -/
theorem C4_SortByProfitability_adjacent (S : SliceSorter) (hS : S.MeetsContract)
    (al : AttList) (hal : ∀ x ∈ al, HasData x) :
    ∃ out, (SortByProfitability S al).result = Outcome.ok out ∧
      out.Chain' ProfitabilityOrdered := by
  obtain ⟨out, hout, _, hpw⟩ := SortByProfitability_sorted S hS al hal
  exact ⟨out, hout, hpw.chain'⟩

/-- Witness of C4: insertion sort on three attestations with `Data`. -/
theorem C4_SortByProfitability_adjacent_witness :
    insertionSorter.MeetsContract ∧
    (∀ x ∈ ([some ⟨[true], some ⟨5, 0, [], none, none⟩, []⟩,
             some ⟨[false], some ⟨7, 0, [], none, none⟩, []⟩,
             some ⟨[true, true], some ⟨7, 0, [], none, none⟩, []⟩] : AttList), HasData x) ∧
    ∃ out, (SortByProfitability insertionSorter
            [some ⟨[true], some ⟨5, 0, [], none, none⟩, []⟩,
             some ⟨[false], some ⟨7, 0, [], none, none⟩, []⟩,
             some ⟨[true, true], some ⟨7, 0, [], none, none⟩, []⟩]).result = Outcome.ok out ∧
      out.Chain' ProfitabilityOrdered :=
  ⟨insertionSorter_meetsContract,
   by simp [HasData],
   C4_SortByProfitability_adjacent insertionSorter insertionSorter_meetsContract _
     (by simp [HasData])⟩

/-- C10: a list of length 0 or 1, whatever its element (a nil pointer or an attestation with
nil `Data` included), is returned unchanged by `SortByProfitability`, without panic and
without a single evaluation of the comparator, whatever `sort.Slice` does. -/
theorem C10_SortByProfitability_short (S : SliceSorter) (al : AttList)
    (hlen : al.length = 0 ∨ al.length = 1) :
    SortByProfitability S al = ⟨Outcome.ok al, []⟩ ∧
    (SortByProfitability S al).result = Outcome.ok al ∧
    (SortByProfitability S al).calls.length = 0 := by
  have h : al.length < 2 := by omega
  simp [SortByProfitability, h]

/-- Witness of C10: a single attestation whose `Data` is nil. -/
theorem C10_SortByProfitability_short_witness :
    (([some ⟨[true], none, []⟩] : AttList).length = 0 ∨
      ([some ⟨[true], none, []⟩] : AttList).length = 1) ∧
    SortByProfitability insertionSorter [some ⟨[true], none, []⟩]
      = ⟨Outcome.ok [some ⟨[true], none, []⟩], []⟩ ∧
    (SortByProfitability insertionSorter [some ⟨[true], none, []⟩]).result
      = Outcome.ok [some ⟨[true], none, []⟩] ∧
    (SortByProfitability insertionSorter [some ⟨[true], none, []⟩]).calls.length = 0 :=
  ⟨Or.inr rfl, C10_SortByProfitability_short insertionSorter [some ⟨[true], none, []⟩] (Or.inr rfl)⟩

/-! ## Claims on `LimitToMaxAttestations` -/

/-- C5: when the list is longer than the configured limit `MaxAttestations`,
`LimitToMaxAttestations` returns exactly the first `MaxAttestations` elements of the list, in
their order. -/
theorem C5_LimitToMaxAttestations_over (BeaconConfig : BeaconChainConfig) (al : AttList)
    (h : al.length > BeaconConfig.MaxAttestations) :
    LimitToMaxAttestations BeaconConfig al = al.take BeaconConfig.MaxAttestations ∧
    (LimitToMaxAttestations BeaconConfig al).length = BeaconConfig.MaxAttestations ∧
    (∀ i, i < BeaconConfig.MaxAttestations → (LimitToMaxAttestations BeaconConfig al)[i]? = al[i]?) := by
  have e : LimitToMaxAttestations BeaconConfig al = al.take BeaconConfig.MaxAttestations := by
    simp [LimitToMaxAttestations, h]
  rw [e]
  refine ⟨rfl, ?_, ?_⟩
  · rw [List.length_take]
    omega
  · intro i hi
    rw [List.getElem?_take_of_lt hi]

/-- Witness of C5: three elements under the limit 2. -/
theorem C5_LimitToMaxAttestations_over_witness :
    ([none, some ⟨[true], none, []⟩, none] : AttList).length > (⟨2⟩ : BeaconChainConfig).MaxAttestations ∧
    (LimitToMaxAttestations ⟨2⟩ [none, some ⟨[true], none, []⟩, none]
        = List.take (⟨2⟩ : BeaconChainConfig).MaxAttestations
            [none, some ⟨[true], none, []⟩, none] ∧
     (LimitToMaxAttestations ⟨2⟩ [none, some ⟨[true], none, []⟩, none]).length
        = (⟨2⟩ : BeaconChainConfig).MaxAttestations ∧
     (∀ i, i < (⟨2⟩ : BeaconChainConfig).MaxAttestations →
        (LimitToMaxAttestations ⟨2⟩ [none, some ⟨[true], none, []⟩, none])[i]?
          = ([none, some ⟨[true], none, []⟩, none] : AttList)[i]?)) :=
  ⟨by decide,
   C5_LimitToMaxAttestations_over ⟨2⟩ [none, some ⟨[true], none, []⟩, none] (by decide)⟩

/-- C6: when the list is not longer than the configured limit (a length equal to the limit
included), `LimitToMaxAttestations` returns the list unchanged. -/
theorem C6_LimitToMaxAttestations_within (BeaconConfig : BeaconChainConfig) (al : AttList)
    (h : al.length ≤ BeaconConfig.MaxAttestations) :
    LimitToMaxAttestations BeaconConfig al = al := by
  have h' : ¬ al.length > BeaconConfig.MaxAttestations := by omega
  simp [LimitToMaxAttestations, h']

/-- Witness of C6: the boundary case, two elements under the limit 2. -/
theorem C6_LimitToMaxAttestations_within_witness :
    ([none, some ⟨[true], none, []⟩] : AttList).length ≤ (⟨2⟩ : BeaconChainConfig).MaxAttestations ∧
    LimitToMaxAttestations ⟨2⟩ [none, some ⟨[true], none, []⟩]
      = [none, some ⟨[true], none, []⟩] :=
  ⟨by decide, C6_LimitToMaxAttestations_within ⟨2⟩ [none, some ⟨[true], none, []⟩] (by decide)⟩

/-- C7: for every list and every limit, the length of the result of `LimitToMaxAttestations`
is the minimum of the length of the list and the limit; so it is at most the limit and at most
the length of the list, and the result is an initial segment of the list. -/
theorem C7_LimitToMaxAttestations_length (BeaconConfig : BeaconChainConfig) (al : AttList) :
    (LimitToMaxAttestations BeaconConfig al).length = min al.length BeaconConfig.MaxAttestations ∧
    (LimitToMaxAttestations BeaconConfig al).length ≤ BeaconConfig.MaxAttestations ∧
    (LimitToMaxAttestations BeaconConfig al).length ≤ al.length ∧
    LimitToMaxAttestations BeaconConfig al <+: al := by
  unfold LimitToMaxAttestations
  by_cases h : al.length > BeaconConfig.MaxAttestations
  · rw [if_pos h, List.length_take]
    refine ⟨by omega, by omega, by omega, List.take_prefix _ _⟩
  · rw [if_neg h]
    refine ⟨by omega, by omega, le_refl _, List.prefix_refl _⟩

/-! ## Claim on `SplitForProposer` -/

/-- C9: `SplitForProposer` is `SplitValidate` with the predicate "`ProcessAttestation`
returns a nil error"; it returns two lists and has no error of its own. Attestation by
attestation, the head of the list goes to the valid list when `ProcessAttestation`, on the
beacon state of that moment, returns a nil error, and to the invalid list for any error
whatever its kind. When `ProcessAttestation` is a function `f` of its arguments that leaves
the beacon state as it is, the valid list is the list filtered by "`f` returns a nil error"
and the invalid list is the list filtered by "`f` returns an error". -/
theorem C9_SplitForProposer {Ctx St Err : Type}
    (ProcessAttestation : Ctx → St → AttPtr → St × Option Err)
    (f : Ctx → St → AttPtr → Option Err) (al : AttList) (ctx : Ctx) (state : St) :
    SplitForProposer ProcessAttestation al ctx state =
      SplitValidate
        (fun att st => ((ProcessAttestation ctx st att).2.isNone, (ProcessAttestation ctx st att).1))
        al state ∧
    SplitForProposer ProcessAttestation [] ctx state = (([], []), state) ∧
    (∀ (att : AttPtr) (rest : AttList) (st : St),
      (ProcessAttestation ctx st att).2 = none →
      SplitForProposer ProcessAttestation (att :: rest) ctx st =
        ((att :: (SplitForProposer ProcessAttestation rest ctx (ProcessAttestation ctx st att).1).1.1,
          (SplitForProposer ProcessAttestation rest ctx (ProcessAttestation ctx st att).1).1.2),
         (SplitForProposer ProcessAttestation rest ctx (ProcessAttestation ctx st att).1).2)) ∧
    (∀ (att : AttPtr) (rest : AttList) (st : St) (err : Err),
      (ProcessAttestation ctx st att).2 = some err →
      SplitForProposer ProcessAttestation (att :: rest) ctx st =
        (((SplitForProposer ProcessAttestation rest ctx (ProcessAttestation ctx st att).1).1.1,
          att :: (SplitForProposer ProcessAttestation rest ctx (ProcessAttestation ctx st att).1).1.2),
         (SplitForProposer ProcessAttestation rest ctx (ProcessAttestation ctx st att).1).2)) ∧
    SplitForProposer (fun c st att => (st, f c st att)) al ctx state =
      ((al.filter (fun att => (f ctx state att).isNone),
        al.filter (fun att => (f ctx state att).isSome)), state) := by
  refine ⟨?_, rfl, ?_, ?_, ?_⟩
  · unfold SplitForProposer
    congr 1
    funext att st
    cases (ProcessAttestation ctx st att).2 <;> rfl
  · intro att rest st h
    unfold SplitForProposer
    rw [SplitValidate_cons_true _ att rest st (by simp only [h])]
    simp only [h]
  · intro att rest st err h
    unfold SplitForProposer
    rw [SplitValidate_cons_false _ att rest st (by simp only [h])]
    simp only [h]
  · unfold SplitForProposer
    rw [SplitValidate_stateless _ (fun att s => by cases h : f ctx s att <;> simp [h]) al state]
    congr 2
    · congr 1
      funext att
      cases h : f ctx state att <;> simp [h]
    · congr 1
      funext att
      cases h : f ctx state att <;> simp [h]

/-! ## Further claims on `LimitToMaxAttestations` -/

/-- C11: `LimitToMaxAttestations` is idempotent for a fixed limit: applied to its own result
under the same configuration it returns that result. -/
theorem C11_LimitToMaxAttestations_idempotent (BeaconConfig : BeaconChainConfig)
    (al : AttList) :
    LimitToMaxAttestations BeaconConfig (LimitToMaxAttestations BeaconConfig al) =
      LimitToMaxAttestations BeaconConfig al := by
  by_cases h : al.length > BeaconConfig.MaxAttestations
  · have e : LimitToMaxAttestations BeaconConfig al = al.take BeaconConfig.MaxAttestations := by
      simp [LimitToMaxAttestations, h]
    rw [e]
    have hlen : ¬ (al.take BeaconConfig.MaxAttestations).length > BeaconConfig.MaxAttestations := by
      rw [List.length_take]
      omega
    simp [LimitToMaxAttestations, hlen]
  · have e : LimitToMaxAttestations BeaconConfig al = al := by
      simp [LimitToMaxAttestations, h]
    rw [e, e]

/-- C12: when the configured limit `MaxAttestations` is 0, `LimitToMaxAttestations` returns
the empty list for every input list, the empty list included. -/
theorem C12_LimitToMaxAttestations_zero (al : AttList) :
    LimitToMaxAttestations ⟨0⟩ al = [] ∧ LimitToMaxAttestations ⟨0⟩ [] = [] := by
  refine ⟨?_, rfl⟩
  cases al with
  | nil => rfl
  | cons x xs => simp [LimitToMaxAttestations]

/-! ## The ranking relation -/

theorem HasKey.hasData {x : AttPtr} {s c : Nat} (h : HasKey x s c) : HasData x := by
  obtain ⟨a, da, hx, hda, _, _⟩ := h
  exact ⟨a, da, hx, hda⟩

theorem HasKey.sortKey_eq {x : AttPtr} {s c : Nat} (h : HasKey x s c) : sortKey x = (s, c) := by
  obtain ⟨a, da, rfl, hda, hs, hc⟩ := h
  simp [sortKey, hda, hs, hc]

theorem less_of_hasKey {A B : AttPtr} {sa ca sb cb : Nat} (hA : HasKey A sa ca)
    (hB : HasKey B sb cb) : less A B = Outcome.ok (decide (RanksBefore sa ca sb cb)) := by
  rw [less_eq_keyLess hA.hasData hB.hasData]
  congr 1
  unfold keyLess RanksBefore
  rw [hA.sortKey_eq, hB.sortKey_eq]
  by_cases h : sa = sb
  · simp [h]
  · simp only [h, if_false, false_and, or_false]

/-- C15, as the code has it: on attestations with `Data`, `less` is the ranking relation of
the specification; it is irreflexive and transitive, and of two attestations one ranks before
the other unless they agree in slot and in bit count. Two attestations that differ in slot or
in bit count are always ranked one way or the other. -/
theorem C15_ranking_strict_order (A B C : AttPtr) (sa ca sb cb sc cc : Nat)
    (hA : HasKey A sa ca) (hB : HasKey B sb cb) (hC : HasKey C sc cc) :
    less A B = Outcome.ok (decide (RanksBefore sa ca sb cb)) ∧
    less A A = Outcome.ok false ∧
    (less A B = Outcome.ok true → less B C = Outcome.ok true → less A C = Outcome.ok true) ∧
    (less A B = Outcome.ok true ∨ less B A = Outcome.ok true ∨ (sa = sb ∧ ca = cb)) ∧
    ((sa, ca) ≠ (sb, cb) → less A B = Outcome.ok true ∨ less B A = Outcome.ok true) := by
  rw [less_of_hasKey hA hB, less_of_hasKey hA hA, less_of_hasKey hB hC, less_of_hasKey hA hC,
    less_of_hasKey hB hA]
  simp only [Outcome.ok.injEq, decide_eq_true_eq, decide_eq_false_iff_not, RanksBefore,
    true_and, ne_eq, Prod.mk.injEq]
  refine ⟨by omega, by omega, by omega, ?_⟩
  intro h
  by_cases h1 : sa = sb
  · have : ca ≠ cb := fun h2 => h ⟨h1, h2⟩
    omega
  · omega

/-- Witness of C15: three attestations of keys (7, 2), (7, 1) and (5, 1). -/
theorem C15_ranking_strict_order_witness :
    HasKey (some ⟨[true, true], some ⟨7, 0, [], none, none⟩, []⟩) 7 2 ∧
    HasKey (some ⟨[true], some ⟨7, 0, [], none, none⟩, []⟩) 7 1 ∧
    HasKey (some ⟨[true], some ⟨5, 0, [], none, none⟩, []⟩) 5 1 ∧
    less (some ⟨[true, true], some ⟨7, 0, [], none, none⟩, []⟩)
      (some ⟨[true], some ⟨7, 0, [], none, none⟩, []⟩) = Outcome.ok true ∧
    less (some ⟨[true], some ⟨7, 0, [], none, none⟩, []⟩)
      (some ⟨[true], some ⟨5, 0, [], none, none⟩, []⟩) = Outcome.ok true ∧
    less (some ⟨[true, true], some ⟨7, 0, [], none, none⟩, []⟩)
      (some ⟨[true], some ⟨5, 0, [], none, none⟩, []⟩) = Outcome.ok true :=
  have hA : HasKey (some ⟨[true, true], some ⟨7, 0, [], none, none⟩, []⟩) 7 2 :=
    ⟨_, _, rfl, rfl, rfl, rfl⟩
  have hB : HasKey (some ⟨[true], some ⟨7, 0, [], none, none⟩, []⟩) 7 1 :=
    ⟨_, _, rfl, rfl, rfl, rfl⟩
  have hC : HasKey (some ⟨[true], some ⟨5, 0, [], none, none⟩, []⟩) 5 1 :=
    ⟨_, _, rfl, rfl, rfl, rfl⟩
  ⟨hA, hB, hC, by decide, by decide,
   (C15_ranking_strict_order _ _ _ 7 2 7 1 5 1 hA hB hC).2.2.1 (by decide) (by decide)⟩

/-- Counterexample to C15 as stated: two distinct attestations with `Data`, of the same slot
and the same bit count (they differ in their signature), neither of which ranks before the
other. -/
theorem C15_ranking_not_total :
    ¬ ((some ⟨[true], some ⟨1, 0, [], none, none⟩, []⟩ : AttPtr)
          ≠ some ⟨[true], some ⟨1, 0, [], none, none⟩, [1]⟩ →
        less (some ⟨[true], some ⟨1, 0, [], none, none⟩, []⟩)
            (some ⟨[true], some ⟨1, 0, [], none, none⟩, [1]⟩) = Outcome.ok true ∨
        less (some ⟨[true], some ⟨1, 0, [], none, none⟩, [1]⟩)
            (some ⟨[true], some ⟨1, 0, [], none, none⟩, []⟩) = Outcome.ok true) := by
  decide

/-- C17: the `less` function handed to `sort.Slice` is a strict weak ordering. On
attestations with `Data` it is the ranking relation (higher slot, or equal slot and higher bit
count), it answers as `keyLess` does, which meets the requirement of `sort.Slice` everywhere;
it is irreflexive, asymmetric and transitive; and incomparability (neither is less than the
other) holds exactly when slot and bit count agree, and is reflexive, symmetric and
transitive. -/
theorem C17_less_strict_weak_order (A B C : AttPtr) (sa ca sb cb sc cc : Nat)
    (hA : HasKey A sa ca) (hB : HasKey B sb cb) (hC : HasKey C sc cc) :
    less A B = Outcome.ok (decide (RanksBefore sa ca sb cb)) ∧
    less A B = Outcome.ok (keyLess A B) ∧ StrictWeakOrder keyLess ∧
    less A A = Outcome.ok false ∧
    (less A B = Outcome.ok true → less B A = Outcome.ok false) ∧
    (less A B = Outcome.ok true → less B C = Outcome.ok true → less A C = Outcome.ok true) ∧
    ((less A B = Outcome.ok false ∧ less B A = Outcome.ok false) ↔ (sa = sb ∧ ca = cb)) ∧
    ((less A B = Outcome.ok false ∧ less B A = Outcome.ok false) →
      (less B A = Outcome.ok false ∧ less A B = Outcome.ok false)) ∧
    ((less A B = Outcome.ok false ∧ less B A = Outcome.ok false) →
      (less B C = Outcome.ok false ∧ less C B = Outcome.ok false) →
      (less A C = Outcome.ok false ∧ less C A = Outcome.ok false)) := by
  refine ⟨less_of_hasKey hA hB, less_eq_keyLess hA.hasData hB.hasData,
    keyLess_strictWeakOrder, ?_⟩
  rw [less_of_hasKey hA hB, less_of_hasKey hA hA, less_of_hasKey hB hC, less_of_hasKey hA hC,
    less_of_hasKey hB hA, less_of_hasKey hC hB, less_of_hasKey hC hA]
  simp only [Outcome.ok.injEq, decide_eq_true_eq, decide_eq_false_iff_not, RanksBefore]
  refine ⟨by omega, by omega, by omega, ⟨by omega, by omega⟩, by omega, by omega⟩

/-- Witness of C17: three attestations of keys (7, 2), (7, 2) and (5, 1); the first two differ
in their signature and are incomparable. -/
theorem C17_less_strict_weak_order_witness :
    HasKey (some ⟨[true, true], some ⟨7, 0, [], none, none⟩, []⟩) 7 2 ∧
    HasKey (some ⟨[true, true], some ⟨7, 0, [], none, none⟩, [1]⟩) 7 2 ∧
    HasKey (some ⟨[true], some ⟨5, 0, [], none, none⟩, []⟩) 5 1 ∧
    (less (some ⟨[true, true], some ⟨7, 0, [], none, none⟩, []⟩)
        (some ⟨[true, true], some ⟨7, 0, [], none, none⟩, [1]⟩) = Outcome.ok false ∧
     less (some ⟨[true, true], some ⟨7, 0, [], none, none⟩, [1]⟩)
        (some ⟨[true, true], some ⟨7, 0, [], none, none⟩, []⟩) = Outcome.ok false) :=
  have hA : HasKey (some ⟨[true, true], some ⟨7, 0, [], none, none⟩, []⟩) 7 2 :=
    ⟨_, _, rfl, rfl, rfl, rfl⟩
  have hB : HasKey (some ⟨[true, true], some ⟨7, 0, [], none, none⟩, [1]⟩) 7 2 :=
    ⟨_, _, rfl, rfl, rfl, rfl⟩
  have hC : HasKey (some ⟨[true], some ⟨5, 0, [], none, none⟩, []⟩) 5 1 :=
    ⟨_, _, rfl, rfl, rfl, rfl⟩
  ⟨hA, hB, hC,
   (C17_less_strict_weak_order _ _ _ 7 2 7 2 5 1 hA hB hC).2.2.2.2.2.2.1.mpr ⟨rfl, rfl⟩⟩

/-! ## Sorted lists and their keys -/

theorem LimitToMaxAttestations_eq_take (BeaconConfig : BeaconChainConfig) (al : AttList) :
    LimitToMaxAttestations BeaconConfig al = al.take BeaconConfig.MaxAttestations := by
  unfold LimitToMaxAttestations
  by_cases h : al.length > BeaconConfig.MaxAttestations
  · rw [if_pos h]
  · rw [if_neg h, List.take_of_length_le (by omega)]

/-- `SortByProfitability` returns on every list of fewer than two elements and on every list
whose elements all have `Data`; what it returns is a permutation of the list in which every
element stands before every element it is `ProfitabilityOrdered` with. -/
theorem SortByProfitability_returns (S : SliceSorter) (hS : S.MeetsContract) (al : AttList)
    (hal : al.length < 2 ∨ ∀ x ∈ al, HasData x) :
    ∃ out, (SortByProfitability S al).result = Outcome.ok out ∧ out.Perm al ∧
      out.Pairwise ProfitabilityOrdered := by
  rcases hal with hlen | hal
  · refine ⟨al, by simp [SortByProfitability, hlen], List.Perm.refl _, ?_⟩
    match al, hlen with
    | [], _ => exact List.Pairwise.nil
    | [x], _ => exact List.pairwise_singleton _ _
    | _ :: _ :: _, h => exact absurd h (by simp)
  · exact SortByProfitability_sorted S hS al hal

theorem ProfitabilityOrdered.keyOrdered {A B : AttPtr} (h : ProfitabilityOrdered A B) :
    KeyOrdered (sortKey A) (sortKey B) := by
  obtain ⟨sa, ca, sb, cb, hA, hB, h⟩ := h
  rw [hA.sortKey_eq, hB.sortKey_eq]
  exact h

theorem ProfitabilityOrdered.not_less {A B : AttPtr} (h : ProfitabilityOrdered A B) :
    less B A = Outcome.ok false := by
  obtain ⟨sa, ca, sb, cb, hA, hB, h⟩ := h
  rw [less_of_hasKey hB hA]
  congr 1
  simp only [decide_eq_false_iff_not, RanksBefore]
  omega

theorem KeyOrdered.antisymm {k₁ k₂ : Nat × Nat} (h₁ : KeyOrdered k₁ k₂) (h₂ : KeyOrdered k₂ k₁) :
    k₁ = k₂ := by
  unfold KeyOrdered at h₁ h₂
  apply Prod.ext <;> omega

/-- Two lists sorted by profitability that are permutations of each other show the same
sequence of keys. -/
theorem keys_eq_of_perm (l₁ l₂ : AttList) (hp : l₁.Perm l₂)
    (h₁ : l₁.Pairwise ProfitabilityOrdered) (h₂ : l₂.Pairwise ProfitabilityOrdered) :
    l₁.map sortKey = l₂.map sortKey := by
  haveI : IsAntisymm (Nat × Nat) KeyOrdered := ⟨fun _ _ => KeyOrdered.antisymm⟩
  have s₁ : (l₁.map sortKey).Sorted KeyOrdered :=
    List.pairwise_map.mpr (h₁.imp ProfitabilityOrdered.keyOrdered)
  have s₂ : (l₂.map sortKey).Sorted KeyOrdered :=
    List.pairwise_map.mpr (h₂.imp ProfitabilityOrdered.keyOrdered)
  exact List.eq_of_perm_of_sorted (hp.map sortKey) s₁ s₂

/-! ## Further claims on `SortByProfitability` -/

/-- C16: for every list whose elements all have `Data`, with `sort.Slice` meeting its
contract, the result of `SortByProfitability` is a permutation of the list: it has the same
length, and every attestation occurs in it as often as in the list. -/
theorem C16_SortByProfitability_perm (S : SliceSorter) (hS : S.MeetsContract)
    (al : AttList) (hal : ∀ x ∈ al, HasData x) :
    ∃ out, (SortByProfitability S al).result = Outcome.ok out ∧ out.Perm al ∧
      out.length = al.length ∧ ∀ att : AttPtr, out.count att = al.count att := by
  obtain ⟨out, hout, hperm, _⟩ := SortByProfitability_sorted S hS al hal
  exact ⟨out, hout, hperm, hperm.length_eq, fun att => hperm.countP_eq _⟩

/-- Witness of C16: insertion sort on two attestations with `Data`. -/
theorem C16_SortByProfitability_perm_witness :
    insertionSorter.MeetsContract ∧
    (∀ x ∈ ([some ⟨[true], some ⟨5, 0, [], none, none⟩, []⟩,
             some ⟨[false], some ⟨7, 0, [], none, none⟩, []⟩] : AttList), HasData x) ∧
    ∃ out, (SortByProfitability insertionSorter
            [some ⟨[true], some ⟨5, 0, [], none, none⟩, []⟩,
             some ⟨[false], some ⟨7, 0, [], none, none⟩, []⟩]).result = Outcome.ok out ∧
      out.Perm [some ⟨[true], some ⟨5, 0, [], none, none⟩, []⟩,
             some ⟨[false], some ⟨7, 0, [], none, none⟩, []⟩] ∧
      out.length = ([some ⟨[true], some ⟨5, 0, [], none, none⟩, []⟩,
             some ⟨[false], some ⟨7, 0, [], none, none⟩, []⟩] : AttList).length ∧
      ∀ att : AttPtr, out.count att =
        ([some ⟨[true], some ⟨5, 0, [], none, none⟩, []⟩,
             some ⟨[false], some ⟨7, 0, [], none, none⟩, []⟩] : AttList).count att :=
  ⟨insertionSorter_meetsContract,
   by simp [HasData],
   C16_SortByProfitability_perm insertionSorter insertionSorter_meetsContract _
     (by simp [HasData])⟩

/-- C18: with `sort.Slice` meeting its contract, on every list on which `SortByProfitability`
returns (fewer than two elements, or all elements with `Data`), let `out` be the sorted list
and `R` the result of `LimitToMaxAttestations` on it. No attestation dropped by the cap ranks
strictly before a kept one: for every `A` in `R` and every `B` of `out` beyond position
`MaxAttestations`, `less B A` answers false, that is, it is not the case that the slot of `B`
is higher, or the slots are equal and the bit count of `B` is higher. -/
theorem C18_top_k_selection (S : SliceSorter) (hS : S.MeetsContract)
    (BeaconConfig : BeaconChainConfig) (al : AttList)
    (hal : al.length < 2 ∨ ∀ x ∈ al, HasData x) :
    ∃ out, (SortByProfitability S al).result = Outcome.ok out ∧
      ∀ A ∈ LimitToMaxAttestations BeaconConfig out,
        ∀ B ∈ out.drop BeaconConfig.MaxAttestations,
          less B A = Outcome.ok false ∧
          ∃ sa ca sb cb, HasKey A sa ca ∧ HasKey B sb cb ∧ ¬ RanksBefore sb cb sa ca := by
  obtain ⟨out, hout, _, hpw⟩ := SortByProfitability_returns S hS al hal
  refine ⟨out, hout, ?_⟩
  intro A hA B hB
  rw [LimitToMaxAttestations_eq_take] at hA
  rw [← List.take_append_drop BeaconConfig.MaxAttestations out] at hpw
  have hAB : ProfitabilityOrdered A B := (List.pairwise_append.mp hpw).2.2 A hA B hB
  refine ⟨hAB.not_less, ?_⟩
  obtain ⟨sa, ca, sb, cb, hkA, hkB, h⟩ := hAB
  refine ⟨sa, ca, sb, cb, hkA, hkB, ?_⟩
  unfold RanksBefore
  omega

/-- Witness of C18: insertion sort on three attestations, limit 2. -/
theorem C18_top_k_selection_witness :
    insertionSorter.MeetsContract ∧
    (([some ⟨[true], some ⟨5, 0, [], none, none⟩, []⟩,
       some ⟨[false], some ⟨7, 0, [], none, none⟩, []⟩,
       some ⟨[true, true], some ⟨7, 0, [], none, none⟩, []⟩] : AttList).length < 2 ∨
     ∀ x ∈ ([some ⟨[true], some ⟨5, 0, [], none, none⟩, []⟩,
             some ⟨[false], some ⟨7, 0, [], none, none⟩, []⟩,
             some ⟨[true, true], some ⟨7, 0, [], none, none⟩, []⟩] : AttList), HasData x) ∧
    ∃ out, (SortByProfitability insertionSorter
            [some ⟨[true], some ⟨5, 0, [], none, none⟩, []⟩,
             some ⟨[false], some ⟨7, 0, [], none, none⟩, []⟩,
             some ⟨[true, true], some ⟨7, 0, [], none, none⟩, []⟩]).result = Outcome.ok out ∧
      ∀ A ∈ LimitToMaxAttestations ⟨2⟩ out,
        ∀ B ∈ out.drop (⟨2⟩ : BeaconChainConfig).MaxAttestations,
          less B A = Outcome.ok false ∧
          ∃ sa ca sb cb, HasKey A sa ca ∧ HasKey B sb cb ∧ ¬ RanksBefore sb cb sa ca :=
  ⟨insertionSorter_meetsContract,
   Or.inr (by simp [HasData]),
   C18_top_k_selection insertionSorter insertionSorter_meetsContract ⟨2⟩ _
     (Or.inr (by simp [HasData]))⟩

/-- C19: with `sort.Slice` meeting its contract, for two lists that are permutations of each
other and whose elements all have `Data`, `SortByProfitability` returns on both, and the two
results show the same sequence of (slot, bit count) keys; the results are permutations of each
other, so they can differ only in the placement of attestations of equal slot and equal bit
count. -/
theorem C19_key_sequence_determinism (S : SliceSorter) (hS : S.MeetsContract)
    (l₁ l₂ : AttList) (hperm : l₁.Perm l₂) (hal : ∀ x ∈ l₁, HasData x) :
    ∃ out₁ out₂, (SortByProfitability S l₁).result = Outcome.ok out₁ ∧
      (SortByProfitability S l₂).result = Outcome.ok out₂ ∧
      out₁.map sortKey = out₂.map sortKey ∧ out₁.Perm out₂ ∧
      (∀ x ∈ out₁, HasKey x (sortKey x).1 (sortKey x).2) ∧
      (∀ x ∈ out₂, HasKey x (sortKey x).1 (sortKey x).2) := by
  have hal₂ : ∀ x ∈ l₂, HasData x := fun x hx => hal x (hperm.symm.subset hx)
  obtain ⟨out₁, hout₁, hp₁, hpw₁⟩ := SortByProfitability_sorted S hS l₁ hal
  obtain ⟨out₂, hout₂, hp₂, hpw₂⟩ := SortByProfitability_sorted S hS l₂ hal₂
  have hp : out₁.Perm out₂ := (hp₁.trans hperm).trans hp₂.symm
  refine ⟨out₁, out₂, hout₁, hout₂, keys_eq_of_perm out₁ out₂ hp hpw₁ hpw₂, hp, ?_, ?_⟩
  · intro x hx
    exact (hal x (hp₁.subset hx)).hasKey
  · intro x hx
    exact (hal₂ x (hp₂.subset hx)).hasKey

/-- Witness of C19: insertion sort on a list of two attestations and on its reverse. -/
theorem C19_key_sequence_determinism_witness :
    insertionSorter.MeetsContract ∧
    ([some ⟨[true], some ⟨5, 0, [], none, none⟩, []⟩,
      some ⟨[false], some ⟨7, 0, [], none, none⟩, []⟩] : AttList).Perm
      [some ⟨[false], some ⟨7, 0, [], none, none⟩, []⟩,
       some ⟨[true], some ⟨5, 0, [], none, none⟩, []⟩] ∧
    (∀ x ∈ ([some ⟨[true], some ⟨5, 0, [], none, none⟩, []⟩,
             some ⟨[false], some ⟨7, 0, [], none, none⟩, []⟩] : AttList), HasData x) ∧
    ∃ out₁ out₂, (SortByProfitability insertionSorter
            [some ⟨[true], some ⟨5, 0, [], none, none⟩, []⟩,
             some ⟨[false], some ⟨7, 0, [], none, none⟩, []⟩]).result = Outcome.ok out₁ ∧
      (SortByProfitability insertionSorter
            [some ⟨[false], some ⟨7, 0, [], none, none⟩, []⟩,
             some ⟨[true], some ⟨5, 0, [], none, none⟩, []⟩]).result = Outcome.ok out₂ ∧
      out₁.map sortKey = out₂.map sortKey ∧ out₁.Perm out₂ ∧
      (∀ x ∈ out₁, HasKey x (sortKey x).1 (sortKey x).2) ∧
      (∀ x ∈ out₂, HasKey x (sortKey x).1 (sortKey x).2) :=
  ⟨insertionSorter_meetsContract,
   List.Perm.swap _ _ _,
   by simp [HasData],
   C19_key_sequence_determinism insertionSorter insertionSorter_meetsContract _ _
     (List.Perm.swap _ _ _) (by simp [HasData])⟩

/-- C13: for the input `[a, b, c]` with `a` of slot 5 and bit count 3, `b` of slot 7 and bit
count 1, `c` of slot 7 and bit count 9, and `sort.Slice` meeting its contract,
`SortByProfitability` returns exactly `[c, b, a]`, and `LimitToMaxAttestations` with limit 2
applied to that result returns exactly `[c, b]`. -/
theorem C13_sort_then_limit_scenario (S : SliceSorter) (hS : S.MeetsContract)
    (a b c : AttPtr) (ha : HasKey a 5 3) (hb : HasKey b 7 1) (hc : HasKey c 7 9) :
    (SortByProfitability S [a, b, c]).result = Outcome.ok [c, b, a] ∧
    LimitToMaxAttestations ⟨2⟩ [c, b, a] = [c, b] := by
  refine ⟨?_, by simp [LimitToMaxAttestations]⟩
  have hal : ∀ x ∈ [a, b, c], HasData x := by
    intro x hx
    simp only [List.mem_cons, List.mem_singleton, List.not_mem_nil, or_false] at hx
    rcases hx with rfl | rfl | rfl
    · exact ha.hasData
    · exact hb.hasData
    · exact hc.hasData
  obtain ⟨out, hout, hperm, hpw⟩ := SortByProfitability_sorted S hS [a, b, c] hal
  have hsorted : [c, b, a].Pairwise ProfitabilityOrdered := by
    refine List.pairwise_cons.mpr ⟨?_, List.pairwise_cons.mpr ⟨?_, List.pairwise_singleton _ _⟩⟩
    · intro x hx
      simp only [List.mem_cons, List.mem_singleton, List.not_mem_nil, or_false] at hx
      rcases hx with rfl | rfl
      · exact ⟨7, 9, 7, 1, hc, hb, by omega⟩
      · exact ⟨7, 9, 5, 3, hc, ha, by omega⟩
    · intro x hx
      simp only [List.mem_singleton] at hx
      subst hx
      exact ⟨7, 1, 5, 3, hb, ha, by omega⟩
  have hp : out.Perm [c, b, a] :=
    hperm.trans (show [a, b, c].Perm [c, b, a] from List.reverse_perm [c, b, a])
  have hkeys := keys_eq_of_perm out [c, b, a] hp hpw hsorted
  simp only [List.map_cons, List.map_nil, ha.sortKey_eq, hb.sortKey_eq, hc.sortKey_eq] at hkeys
  have hmem : ∀ x ∈ out, x = a ∨ x = b ∨ x = c := by
    intro x hx
    simpa using hperm.subset hx
  rw [hout]
  congr 1
  obtain ⟨x, y, z, rfl⟩ := List.length_eq_three.mp hperm.length_eq
  simp only [List.map_cons, List.map_nil, List.cons.injEq, and_true] at hkeys
  obtain ⟨hx, hy, hz⟩ := hkeys
  have ex : x = c := by
    rcases hmem x (by simp) with h | h | h
    · rw [h, ha.sortKey_eq] at hx; exact absurd hx (by decide)
    · rw [h, hb.sortKey_eq] at hx; exact absurd hx (by decide)
    · exact h
  have ey : y = b := by
    rcases hmem y (by simp) with h | h | h
    · rw [h, ha.sortKey_eq] at hy; exact absurd hy (by decide)
    · exact h
    · rw [h, hc.sortKey_eq] at hy; exact absurd hy (by decide)
  have ez : z = a := by
    rcases hmem z (by simp) with h | h | h
    · exact h
    · rw [h, hb.sortKey_eq] at hz; exact absurd hz (by decide)
    · rw [h, hc.sortKey_eq] at hz; exact absurd hz (by decide)
  rw [ex, ey, ez]

/-- Witness of C13: insertion sort on three attestations of the keys of the scenario. -/
theorem C13_sort_then_limit_scenario_witness :
    insertionSorter.MeetsContract ∧
    HasKey (some ⟨[true, true, true], some ⟨5, 0, [], none, none⟩, []⟩) 5 3 ∧
    HasKey (some ⟨[true], some ⟨7, 0, [], none, none⟩, []⟩) 7 1 ∧
    HasKey (some ⟨[true, true, true, true, true, true, true, true, true],
      some ⟨7, 0, [], none, none⟩, []⟩) 7 9 ∧
    (SortByProfitability insertionSorter
        [some ⟨[true, true, true], some ⟨5, 0, [], none, none⟩, []⟩,
         some ⟨[true], some ⟨7, 0, [], none, none⟩, []⟩,
         some ⟨[true, true, true, true, true, true, true, true, true],
           some ⟨7, 0, [], none, none⟩, []⟩]).result =
      Outcome.ok
        [some ⟨[true, true, true, true, true, true, true, true, true],
           some ⟨7, 0, [], none, none⟩, []⟩,
         some ⟨[true], some ⟨7, 0, [], none, none⟩, []⟩,
         some ⟨[true, true, true], some ⟨5, 0, [], none, none⟩, []⟩] ∧
    LimitToMaxAttestations ⟨2⟩
        [some ⟨[true, true, true, true, true, true, true, true, true],
           some ⟨7, 0, [], none, none⟩, []⟩,
         some ⟨[true], some ⟨7, 0, [], none, none⟩, []⟩,
         some ⟨[true, true, true], some ⟨5, 0, [], none, none⟩, []⟩] =
      [some ⟨[true, true, true, true, true, true, true, true, true],
         some ⟨7, 0, [], none, none⟩, []⟩,
       some ⟨[true], some ⟨7, 0, [], none, none⟩, []⟩] :=
  ⟨insertionSorter_meetsContract,
   ⟨_, _, rfl, rfl, rfl, rfl⟩, ⟨_, _, rfl, rfl, rfl, rfl⟩, ⟨_, _, rfl, rfl, rfl, rfl⟩,
   C13_sort_then_limit_scenario insertionSorter insertionSorter_meetsContract _ _ _
     ⟨_, _, rfl, rfl, rfl, rfl⟩ ⟨_, _, rfl, rfl, rfl, rfl⟩ ⟨_, _, rfl, rfl, rfl, rfl⟩⟩

/-! ## Scenario and pipeline -/

theorem attOf_hasData (slot : Nat) (bits : Bitlist) : HasData (attOf slot bits) :=
  ⟨_, _, rfl, rfl⟩

/-- C14: for every list of 10 attestations (all with `Data`) of which exactly 3 have a slot
below 2, and the predicate "the slot is at least 2", `SplitValidate` returns as valid list the
7 attestations of slot at least 2 in their input order and as invalid list the 3 attestations
of slot below 2 in their input order. -/
theorem C14_split_scenario {σ : Type} (validate : AttPtr → σ → Bool × σ)
    (hv : ∀ att s, (validate att s).1 = slotAtLeast 2 att) (al : AttList) (s : σ)
    (hlen : al.length = 10) (hdata : ∀ x ∈ al, HasData x)
    (hcount : al.countP (fun x => decide ((sortKey x).1 < 2)) = 3) :
    (SplitValidate validate al s).1.1 = al.filter (fun x => decide (2 ≤ (sortKey x).1)) ∧
    (SplitValidate validate al s).1.2 = al.filter (fun x => decide ((sortKey x).1 < 2)) ∧
    (SplitValidate validate al s).1.1.length = 7 ∧
    (SplitValidate validate al s).1.2.length = 3 ∧
    (SplitValidate validate al s).1.1.Sublist al ∧
    (SplitValidate validate al s).1.2.Sublist al ∧
    (∀ x ∈ (SplitValidate validate al s).1.1, ∃ slot count, HasKey x slot count ∧ 2 ≤ slot) ∧
    (∀ x ∈ (SplitValidate validate al s).1.2, ∃ slot count, HasKey x slot count ∧ slot < 2) := by
  have hneg : (fun att => !slotAtLeast 2 att) = fun x => decide ((sortKey x).1 < 2) := by
    funext x
    by_cases h : (sortKey x).1 < 2
    · have h2 : ¬ 2 ≤ (sortKey x).1 := by omega
      simp [slotAtLeast, h, h2]
    · have h2 : 2 ≤ (sortKey x).1 := by omega
      simp [slotAtLeast, h, h2]
  have hpos : slotAtLeast 2 = fun x => decide (2 ≤ (sortKey x).1) := rfl
  have hsplit := SplitValidate_filter validate (slotAtLeast 2) hv al s
  rw [hneg, hpos] at hsplit
  have hinv : (al.filter (fun x => decide ((sortKey x).1 < 2))).length = 3 := by
    rw [← List.countP_eq_length_filter]
    exact hcount
  have hsum := List.length_eq_countP_add_countP (fun x => decide ((sortKey x).1 < 2)) al
  have hval : (al.filter (fun x => decide (2 ≤ (sortKey x).1))).length = 7 := by
    rw [← List.countP_eq_length_filter]
    have e : (fun x : AttPtr => decide (2 ≤ (sortKey x).1))
        = fun x => decide ¬ (decide ((sortKey x).1 < 2) = true) := by
      funext x
      by_cases h : (sortKey x).1 < 2
      · have h2 : ¬ 2 ≤ (sortKey x).1 := by omega
        simp [h, h2]
      · have h2 : 2 ≤ (sortKey x).1 := by omega
        simp [h, h2]
    rw [e]
    omega
  rw [hsplit]
  refine ⟨rfl, rfl, hval, hinv, List.filter_sublist _, List.filter_sublist _, ?_, ?_⟩
  · intro x hx
    have hmem := List.mem_filter.mp hx
    exact ⟨_, _, (hdata x hmem.1).hasKey, by simpa using hmem.2⟩
  · intro x hx
    have hmem := List.mem_filter.mp hx
    exact ⟨_, _, (hdata x hmem.1).hasKey, by simpa using hmem.2⟩

/-- Witness of C14: the pure predicate "slot at least 2" on `scenarioList`. -/
theorem C14_split_scenario_witness :
    (∀ (att : AttPtr) (s : Unit), (pureValidate (slotAtLeast 2) att s).1 = slotAtLeast 2 att) ∧
    scenarioList.length = 10 ∧ (∀ x ∈ scenarioList, HasData x) ∧
    scenarioList.countP (fun x => decide ((sortKey x).1 < 2)) = 3 ∧
    (SplitValidate (pureValidate (slotAtLeast 2)) scenarioList ()).1.1.length = 7 ∧
    (SplitValidate (pureValidate (slotAtLeast 2)) scenarioList ()).1.2.length = 3 :=
  have hdata : ∀ x ∈ scenarioList, HasData x := by
    intro x hx
    simp only [scenarioList, List.mem_cons, List.mem_singleton, List.not_mem_nil, or_false] at hx
    rcases hx with h | h | h | h | h | h | h | h | h | h <;> rw [h] <;> exact attOf_hasData _ _
  have h := C14_split_scenario (pureValidate (slotAtLeast 2)) (fun _ _ => rfl) scenarioList ()
    rfl hdata (by decide)
  ⟨fun _ _ => rfl, rfl, hdata, by decide, h.2.2.1, h.2.2.2.1⟩

/-- C20: with `sort.Slice` meeting its contract, a deterministic predicate `p` and any limit,
on every list whose valid part has fewer than two elements or consists of attestations with
`Data`, the pipeline `SplitValidate`, then `SortByProfitability` on the valid output, then
`LimitToMaxAttestations` returns a list `R` such that: the length of `R` is at most the limit;
every element of `R` is an element of the input list that satisfies `p`; and `R` is ordered by
non-increasing slot and, within equal slot, non-increasing bit count. -/
theorem C20_pipeline {σ : Type} (S : SliceSorter) (hS : S.MeetsContract)
    (BeaconConfig : BeaconChainConfig) (validate : AttPtr → σ → Bool × σ) (p : AttPtr → Bool)
    (hp : ∀ att s, (validate att s).1 = p att) (al : AttList) (s : σ)
    (hal : (al.filter p).length < 2 ∨ ∀ x ∈ al, p x = true → HasData x) :
    ∃ out, (SortByProfitability S (SplitValidate validate al s).1.1).result = Outcome.ok out ∧
      (LimitToMaxAttestations BeaconConfig out).length ≤ BeaconConfig.MaxAttestations ∧
      (∀ x ∈ LimitToMaxAttestations BeaconConfig out, x ∈ al ∧ p x = true) ∧
      (LimitToMaxAttestations BeaconConfig out).Pairwise ProfitabilityOrdered := by
  have hvalid : (SplitValidate validate al s).1.1 = al.filter p := by
    rw [SplitValidate_filter validate p hp al s]
  rw [hvalid]
  have hret : (al.filter p).length < 2 ∨ ∀ x ∈ al.filter p, HasData x := by
    rcases hal with h | h
    · exact Or.inl h
    · exact Or.inr (fun x hx => h x (List.mem_filter.mp hx).1 (List.mem_filter.mp hx).2)
  obtain ⟨out, hout, hperm, hpw⟩ := SortByProfitability_returns S hS (al.filter p) hret
  refine ⟨out, hout, ?_, ?_, ?_⟩
  · rw [LimitToMaxAttestations_eq_take, List.length_take]
    omega
  · intro x hx
    rw [LimitToMaxAttestations_eq_take] at hx
    exact List.mem_filter.mp (hperm.subset (List.mem_of_mem_take hx))
  · rw [LimitToMaxAttestations_eq_take]
    exact hpw.sublist (List.take_sublist _ _)

/-- Witness of C20: insertion sort, the predicate "slot at least 2" on `scenarioList`, and the
limit 4. -/
theorem C20_pipeline_witness :
    insertionSorter.MeetsContract ∧
    (∀ (att : AttPtr) (s : Unit), (pureValidate (slotAtLeast 2) att s).1 = slotAtLeast 2 att) ∧
    ((scenarioList.filter (slotAtLeast 2)).length < 2 ∨
      ∀ x ∈ scenarioList, slotAtLeast 2 x = true → HasData x) ∧
    ∃ out, (SortByProfitability insertionSorter
        (SplitValidate (pureValidate (slotAtLeast 2)) scenarioList ()).1.1).result
          = Outcome.ok out ∧
      (LimitToMaxAttestations ⟨4⟩ out).length ≤ (⟨4⟩ : BeaconChainConfig).MaxAttestations ∧
      (∀ x ∈ LimitToMaxAttestations ⟨4⟩ out, x ∈ scenarioList ∧ slotAtLeast 2 x = true) ∧
      (LimitToMaxAttestations ⟨4⟩ out).Pairwise ProfitabilityOrdered :=
  have hdata : ∀ x ∈ scenarioList, slotAtLeast 2 x = true → HasData x := by
    intro x hx _
    simp only [scenarioList, List.mem_cons, List.mem_singleton, List.not_mem_nil, or_false] at hx
    rcases hx with h | h | h | h | h | h | h | h | h | h <;> rw [h] <;> exact attOf_hasData _ _
  ⟨insertionSorter_meetsContract, fun _ _ => rfl, Or.inr hdata,
   C20_pipeline insertionSorter insertionSorter_meetsContract ⟨4⟩
     (pureValidate (slotAtLeast 2)) (slotAtLeast 2) (fun _ _ => rfl) scenarioList ()
     (Or.inr hdata)⟩

end attestationutil
